import Mathlib

/-!
Verification of the persistence-and-streaming core of a chat front-end
(`newai.py`): history store (load / flatten / save_all / append),
exchange pairing and deletion, and the streaming completion client.

Python strings are modelled as Lean `String`s; Python's lexicographic
string comparison (used by `list.sort(key=lambda x: x["timestamp"])`) is
modelled by an explicit lexicographic order on the underlying character
lists.  Python's insertion-ordered `dict` is modelled by an association
list, and the persisted JSON file by an explicit `FileState`.
-/

namespace NewAI

/-- One persisted chat message: `{timestamp, user, message}`
(field `user` holds the speaker tag, per the file format). -/
structure ChatTurn where
  timestamp : String
  user : String
  message : String
deriving DecidableEq, Repr

/-! ### Python string comparison (lexicographic by code point) -/

/-- Strict lexicographic order on character lists, as Python compares
strings: `[] < c :: _`; heads compared first, ties recurse. -/
def strLt : List Char → List Char → Bool
  | _, [] => false
  | [], _ :: _ => true
  | a :: as, b :: bs => if a < b then true else if a = b then strLt as bs else false

/-- Non-strict lexicographic order: `s ≤ t` iff `¬ t < s`. -/
def strLe (s t : List Char) : Bool := ! strLt t s

/-- Python's `s <= t` on strings, used as the sort key order on timestamps. -/
def tsLe (s t : String) : Bool := strLe s.data t.data

/-- The ordering relation the history sort uses: compare the
`timestamp` strings lexicographically. -/
def tsRel (a b : ChatTurn) : Prop := tsLe a.timestamp b.timestamp = true

instance : DecidableRel tsRel := fun a b => by unfold tsRel; infer_instance

/-! ### Date extraction: `chat["timestamp"].split(" ")[0]` -/

/-- The first component of `split(" ")`: characters before the first
space (the whole list when no space occurs). -/
def takeUntilSpace : List Char → List Char
  | [] => []
  | c :: cs => if c = ' ' then [] else c :: takeUntilSpace cs

/-- `ts.split(" ")[0]`, the date portion of a timestamp. -/
def dateOf (ts : String) : String := String.mk (takeUntilSpace ts.data)

/-! ### The grouped history (insertion-ordered dict of date → turns) -/

/-- The in-memory grouped history: an insertion-ordered mapping from
date string to that date's turns, as Python's `dict` preserves
insertion order. -/
abbrev Grouped := List (String × List ChatTurn)

/-- `daily_chats.setdefault(date, []).append(chat)`: append `t` to the
bucket of key `d`, creating the bucket at the end when `d` is absent. -/
def addToBucket (m : Grouped) (d : String) (t : ChatTurn) : Grouped :=
  match m with
  | [] => [(d, [t])]
  | (k, v) :: rest => if k = d then (k, v ++ [t]) :: rest else (k, v) :: addToBucket rest d t

/-- The grouping loop of `load_chat_history` run from an arbitrary
accumulator. -/
def loadAux (m : Grouped) (chats : List ChatTurn) : Grouped :=
  chats.foldl (fun acc c => addToBucket acc (dateOf c.timestamp) c) m

/-- Group a flat list of turns by the date portion of their timestamps,
preserving relative order inside each bucket. -/
def groupByDate (chats : List ChatTurn) : Grouped := loadAux [] chats

/-! ### JSON values -/

/-- A parsed JSON value, as `json.load` / `json.loads` produce.
Numbers are kept abstract as integers; the claims only concern objects
and strings. -/
inductive Json where
  | null
  | bool (b : Bool)
  | num (n : Int)
  | str (s : String)
  | arr (elems : List Json)
  | obj (fields : List (String × Json))
deriving Repr

/-! ### The persisted file -/

/-- The state of `chat_history.json` on disk, partitioned as the read
code distinguishes it: absent; present but rejected by `json.load`
(the only failure the `try` block guards); a well-shaped document — a
JSON array of turn objects; or any other parseable JSON document
(`wrongShape` is meant for documents that are NOT an array of objects
carrying a string `timestamp` field — the states on which the real
grouping loop raises uncaught). -/
inductive FileState where
  | missing
  | malformed
  | content (chats : List ChatTurn)
  | wrongShape (doc : Json)

/-- The JSON encoding of one persisted turn object,
`{timestamp, user, message}`. -/
def encodeTurn (t : ChatTurn) : Json :=
  .obj [("timestamp", .str t.timestamp), ("user", .str t.user), ("message", .str t.message)]

/-- The value bound to `chats` after the guarded read: a missing file
and a JSON-parse failure (caught and reported) both leave `chats = []`;
any parseable document is handed to the grouping loop as is. -/
def readFileJson : FileState → Json
  | .missing => .arr []
  | .malformed => .arr []
  | .content cs => .arr (cs.map encodeTurn)
  | .wrongShape doc => doc

/-- A Python exception class raised by the unguarded part of the
history-reading code. -/
inductive PyError where
  | typeError
  | keyError
  | attributeError
deriving DecidableEq, Repr

/-- What `for chat in chats` iterates over, or the TypeError it raises:
an array yields its elements, an object its keys (in insertion order),
a string its characters as one-character strings; anything else is not
iterable. -/
def pyIter : Json → Except PyError (List Json)
  | .arr elems => .ok elems
  | .obj fields => .ok (fields.map (fun kv => Json.str kv.1))
  | .str s => .ok (s.data.map (fun c => Json.str (String.mk [c])))
  | _ => .error .typeError

/-- `chat["timestamp"].split(" ")[0]` on one iterated element, or the
exception it raises: subscripting a non-object with a string is a
TypeError, a missing key a KeyError, and `.split` on a non-string value
an AttributeError. -/
def chatDate : Json → Except PyError String
  | .obj fields =>
    match fields.lookup "timestamp" with
    | some (.str s) => .ok (dateOf s)
    | some _ => .error .attributeError
    | none => .error .keyError
  | _ => .error .typeError

/-- The grouped history over raw JSON elements, as the grouping loop
builds it (Python appends the raw dicts into the buckets). -/
abbrev GroupedJson := List (String × List Json)

/-- `daily_chats.setdefault(date, []).append(chat)` over raw JSON
elements. -/
def addToBucketJ (m : GroupedJson) (d : String) (c : Json) : GroupedJson :=
  match m with
  | [] => [(d, [c])]
  | (k, v) :: rest => if k = d then (k, v ++ [c]) :: rest else (k, v) :: addToBucketJ rest d c

/-- The grouping loop of `load_chat_history`, which sits OUTSIDE the
`try` block: the first element without a usable `timestamp` raises out
of the function. -/
def groupLoop : GroupedJson → List Json → Except PyError GroupedJson
  | m, [] => .ok m
  | m, c :: cs =>
    match chatDate c with
    | .error e => .error e
    | .ok d => groupLoop (addToBucketJ m d c) cs

/-- `load_chat_history` in full: the guarded read, then the unguarded
iteration and grouping, either of which can raise out of the function
on a parseable document of the wrong shape. -/
def load_chat_history_full (fs : FileState) : Except PyError GroupedJson :=
  match pyIter (readFileJson fs) with
  | .error e => .error e
  | .ok elems => groupLoop [] elems

/-- The flat turn list the read path obtains on the states where the
code completes normally: a missing file and an unparsable file both
yield `[]` (the parse error is caught and reported, not raised).  The
`wrongShape` states are not representable at the turn level — on them
the real `load_chat_history` raises (see `load_chat_history_full`) —
so this turn-level read is only ever applied to the other three
states. -/
def readFileChats : FileState → List ChatTurn
  | .missing => []
  | .malformed => []
  | .content cs => cs
  | .wrongShape _ => []

/-- Whether the read path invokes the non-fatal error report
(`st.error`), which happens exactly on a malformed file. -/
def readErrorReported : FileState → Bool
  | .malformed => true
  | _ => false

/-- `load_chat_history` on the normally-completing states: read the
flat persisted list (missing or malformed file treated as empty) and
group it by date.  This is the turn-level restriction of
`load_chat_history_full`, which additionally models the uncaught
exceptions raised on `wrongShape` states. -/
def load_chat_history (fs : FileState) : Grouped := groupByDate (readFileChats fs)

/-- The JSON image of a turn-level grouped history: what the raw
grouping loop builds when every element is a well-shaped turn object. -/
def encodeGrouped (g : Grouped) : GroupedJson :=
  g.map (fun kv => (kv.1, kv.2.map encodeTurn))

/-- Concatenation of all buckets of the grouped view, in bucket
insertion order. -/
def joinG (g : Grouped) : List ChatTurn := (g.map Prod.snd).flatten

/-- `flatten_chat_history`: concatenate all buckets, then
`sort(key=lambda x: x["timestamp"])` — a stable ascending sort by the
timestamp string, modelled by `insertionSort` over `tsRel`. -/
def flatten_chat_history (g : Grouped) : List ChatTurn :=
  List.insertionSort tsRel (joinG g)

/-- `save_all_chat_history`: overwrite the file with the given flat
list. -/
def save_all_chat_history (chats : List ChatTurn) : FileState := .content chats

/-- `append_chat_entry`: read the persisted list (missing/malformed
treated as empty), append the entry, write everything back. -/
def append_chat_entry (fs : FileState) (entry : ChatTurn) : FileState :=
  save_all_chat_history (readFileChats fs ++ [entry])

/-! ### Exchange pairing (the sidebar / main-window scan) -/

/-- The assistant speaker-tag set the pairing scan checks:
`chats[i]["user"] in ["Ollama", "AI  "]`. -/
def isAssistantTag (s : String) : Prop := s = "Ollama" ∨ s = "AI  "

instance : DecidablePred isAssistantTag := fun s => by unfold isAssistantTag; infer_instance

/-- The exchange-pairing scan over one date's turns, producing the
displayed exchanges: a turn tagged `"You"` grabs the immediately
following turn exactly when that turn carries an assistant tag;
every other turn forms a one-element exchange. -/
def pairExchanges : List ChatTurn → List (List ChatTurn)
  | [] => []
  | t :: rest =>
    if t.user = "You" then
      match rest with
      | [] => [[t]]
      | t2 :: rest2 =>
        if isAssistantTag t2.user then
          [t, t2] :: pairExchanges rest2
        else
          [t] :: pairExchanges (t2 :: rest2)
    else
      [t] :: pairExchanges rest

/-- The same scan keeping the cursor indices it records
(`user_msg_index`, `ai_msg_index`), starting from cursor `i`. -/
def pairExchangeIdx (i : Nat) : List ChatTurn → List (Nat × Option Nat)
  | [] => []
  | t :: rest =>
    if t.user = "You" then
      match rest with
      | [] => [(i, none)]
      | t2 :: rest2 =>
        if isAssistantTag t2.user then
          (i, some (i + 1)) :: pairExchangeIdx (i + 2) rest2
        else
          (i, none) :: pairExchangeIdx (i + 1) (t2 :: rest2)
    else
      (i, none) :: pairExchangeIdx (i + 1) rest

/-- The index positions one recorded exchange spans. -/
def exSpan (p : Nat × Option Nat) : List Nat :=
  match p.2 with
  | none => [p.1]
  | some j => [p.1, j]

/-! ### Deletion -/

/-- `[chat for idx, chat in enumerate(chats) if idx not in idxs]`,
with the running index made explicit. -/
def deleteIndicesFrom (i : Nat) (idxs : List Nat) : List ChatTurn → List ChatTurn
  | [] => []
  | c :: cs =>
    if idxs.contains i then deleteIndicesFrom (i + 1) idxs cs
    else c :: deleteIndicesFrom (i + 1) idxs cs

/-- Drop from `chats` the elements whose position is listed in `idxs`. -/
def deleteIndices (chats : List ChatTurn) (idxs : List Nat) : List ChatTurn :=
  deleteIndicesFrom 0 idxs chats

/-- The delete-exchange handler: remove the recorded index (or index
pair) from date `d`'s bucket, then persist the flatten of the whole
grouped structure.  Returns the new grouped view and the persisted
flat list. -/
def deleteExchange (hist : Grouped) (d : String) (uIdx : Nat) (aiIdx : Option Nat) :
    Grouped × List ChatTurn :=
  let idxs := uIdx :: (match aiIdx with | some j => [j] | none => [])
  let newHist := hist.map (fun kv => if kv.1 = d then (kv.1, deleteIndices kv.2 idxs) else kv)
  (newHist, flatten_chat_history newHist)

/-! ### Streaming completion client -/

/-- Whether a JSON array element equals the Python string
`"message"`, as `"message" in data` tests elements of a list. -/
def isMessageStr : Json → Bool
  | .str s => s == "message"
  | _ => false

/-- Whether `needle` occurs at the start of `hay`. -/
def startsWithChars : List Char → List Char → Bool
  | [], _ => true
  | _ :: _, [] => false
  | a :: as, b :: bs => a == b && startsWithChars as bs

/-- Whether `needle` occurs contiguously anywhere in `hay`, as the
Python substring test `needle in hay` on strings. -/
def containsChars (needle : List Char) : List Char → Bool
  | [] => startsWithChars needle []
  | c :: cs => startsWithChars needle (c :: cs) || containsChars needle cs

/-- What the generator body does with one decoded line. -/
inductive LineResult where
  | yieldVal (v : Json)
  | skip
  | error
deriving Repr

/-- One iteration of the streaming loop on a decoded line `data`:
`if "message" in data: yield data["message"]["content"]`.  A line
without a `message` key is passed over; a `message` value that cannot
be indexed with `"content"` raises (KeyError / TypeError), which the
surrounding handler turns into the end of the stream. -/
def processLine : Json → LineResult
  | .obj fields =>
    match fields.lookup "message" with
    | none => .skip
    | some (.obj mfields) =>
      match mfields.lookup "content" with
      | some v => .yieldVal v
      | none => .error
    | some _ => .error
  | .arr elems => if elems.any isMessageStr then .error else .skip
  | .str s => if containsChars "message".data s.data then .error else .skip
  | _ => .error

/-- `generate_ai_response` on a response body given as its sequence of
decoded lines: `none` stands for a line `json.loads` rejects.  Any
raised error is caught by the `except` handler (reported non-fatally),
ending the produced sequence; fragments yielded before it stand. -/
def generate_ai_response : List (Option Json) → List Json
  | [] => []
  | none :: _ => []
  | some j :: rest =>
    match processLine j with
    | .yieldVal v => v :: generate_ai_response rest
    | .skip => generate_ai_response rest
    | .error => []

/-- A well-formed streaming line carrying one text fragment `s`. -/
def contentLine (s : String) : Option Json :=
  some (.obj [("message", .obj [("content", .str s)])])

/-- The consumer's accumulation `full_response += chunk` over the
produced fragments (string fragments extend the accumulator). -/
def assembleFragments (frags : List Json) : String :=
  frags.foldl (fun acc f => match f with | .str s => acc ++ s | _ => acc) ""

/-- The assistant half of the submit handler: consume the stream,
assemble `full_response`, and append the assistant turn (tag
`"AI  "`) to the persisted history. -/
def runAssistantPhase (fs : FileState) (ts : String) (lines : List (Option Json)) : FileState :=
  let full := assembleFragments (generate_ai_response lines)
  append_chat_entry fs ⟨ts, "AI  ", full⟩

/-! ### The chronological key the specification describes -/

/-- Numeric value of a digit character. -/
def digitVal (c : Char) : Nat := c.toNat - 48

/-- Read a block of digit characters as a number. -/
def readNatChars (cs : List Char) : Nat := cs.foldl (fun a c => 10 * a + digitVal c) 0

/-- Modelled from the spec: the chronological rank of a timestamp in
the `dd-mm-YYYY HH:MM:SS` format — year first, then month, day, hour,
minute, second.  This is the specification's reading of "ascending
chronological order", kept separate from the code's lexicographic
string comparison so the two can be compared. -/
def chronoKeySpec (ts : String) : Nat :=
  let l := ts.data
  let dd := readNatChars (l.take 2)
  let mm := readNatChars ((l.drop 3).take 2)
  let yyyy := readNatChars ((l.drop 6).take 4)
  let hh := readNatChars ((l.drop 11).take 2)
  let mi := readNatChars ((l.drop 14).take 2)
  let ss := readNatChars ((l.drop 17).take 2)
  ((((yyyy * 100 + mm) * 100 + dd) * 100 + hh) * 100 + mi) * 100 + ss

/-! ### Well-formed timestamps -/

/-- A well-formed timestamp character list: a 10-character date part
containing no space, followed by a space (as `dd-mm-YYYY HH:MM:SS`
instances are). -/
def wfTs (l : List Char) : Prop :=
  (l.take 10).length = 10 ∧ ' ' ∉ l.take 10 ∧ (l.drop 10).head? = some ' '

instance (l : List Char) : Decidable (wfTs l) := by unfold wfTs; infer_instance

/-- Every bucket of a grouped structure holds only turns whose date is
the bucket's key (an invariant of grouping). -/
def bucketsDated (m : Grouped) : Prop :=
  ∀ kv ∈ m, ∀ u ∈ kv.2, dateOf u.timestamp = kv.1

/-- All turns of a list carry well-formed timestamps. -/
def wfAll (l : List ChatTurn) : Prop := ∀ u ∈ l, wfTs u.timestamp.data

/-! ### Concrete turns used in the worked examples -/

/-- The user turn `user:"hi"` of the specification's pairing example. -/
def turnHi : ChatTurn := ⟨"01-01-2025 10:00:00", "You", "hi"⟩

/-- The assistant turn `assistant:"hello"` of the pairing example. -/
def turnHello : ChatTurn := ⟨"01-01-2025 10:00:05", "AI  ", "hello"⟩

/-- The trailing user turn `user:"bye"` of the pairing example. -/
def turnBye : ChatTurn := ⟨"01-01-2025 10:00:10", "You", "bye"⟩

/-- A turn stamped 2 January 2025: lexicographically later than
`turnFeb1`, chronologically earlier. -/
def turnJan2 : ChatTurn := ⟨"02-01-2025 00:00:00", "You", "second of January"⟩

/-- A turn stamped 1 February 2025. -/
def turnFeb1 : ChatTurn := ⟨"01-02-2025 00:00:00", "You", "first of February"⟩

/-- A turn stamped 31 January 2025: chronologically before `turnFeb1`,
lexicographically after it. -/
def turnJan31 : ChatTurn := ⟨"31-01-2025 12:00:00", "You", "end of January"⟩

/-- A streaming line whose `message` object has no `content` field. -/
def msgNoContentLine : Option Json := some (.obj [("message", .obj [])])

/-! ## Order lemmas for the lexicographic string comparison -/

theorem strLt_irrefl : ∀ l : List Char, strLt l l = false
  | [] => rfl
  | c :: cs => by simp [strLt, strLt_irrefl cs]

theorem strLt_asymm : ∀ (a b : List Char), strLt a b = true → strLt b a = false
  | _, [], h => by simp [strLt] at h
  | [], _ :: _, _ => rfl
  | a :: as, b :: bs, h => by
    simp only [strLt] at h ⊢
    by_cases hab : a < b
    · have h1 : ¬ b < a := lt_asymm hab
      have h2 : b ≠ a := fun e => absurd (e ▸ hab) (lt_irrefl b)
      simp [h1, h2]
    · rw [if_neg hab] at h
      by_cases heq : a = b
      · subst heq
        rw [if_pos rfl] at h
        simp [lt_irrefl, strLt_asymm as bs h]
      · rw [if_neg heq] at h
        exact absurd h (by simp)

theorem strLt_trans : ∀ (a b c : List Char),
    strLt a b = true → strLt b c = true → strLt a c = true
  | _, _, [], _, h2 => by simp [strLt] at h2
  | _, [], _ :: _, h1, _ => by simp [strLt] at h1
  | [], _ :: _, _ :: _, _, _ => rfl
  | a :: as, b :: bs, c :: cs, h1, h2 => by
    simp only [strLt] at h1 h2 ⊢
    by_cases hab : a < b
    · by_cases hbc : b < c
      · simp [lt_trans hab hbc]
      · rw [if_neg hbc] at h2
        by_cases hbc' : b = c
        · subst hbc'; simp [hab]
        · rw [if_neg hbc'] at h2; exact absurd h2 (by simp)
    · rw [if_neg hab] at h1
      by_cases hab' : a = b
      · subst hab'
        rw [if_pos rfl] at h1
        by_cases hbc : a < c
        · simp [hbc]
        · rw [if_neg hbc] at h2 ⊢
          by_cases hbc' : a = c
          · subst hbc'
            rw [if_pos rfl] at h2 ⊢
            exact strLt_trans as bs cs h1 h2
          · rw [if_neg hbc'] at h2; exact absurd h2 (by simp)
      · rw [if_neg hab'] at h1; exact absurd h1 (by simp)

theorem strLt_conn : ∀ (a b : List Char),
    strLt a b = false → strLt b a = false → a = b
  | [], [], _, _ => rfl
  | [], _ :: _, h1, _ => by simp [strLt] at h1
  | _ :: _, [], _, h2 => by simp [strLt] at h2
  | a :: as, b :: bs, h1, h2 => by
    simp only [strLt] at h1 h2
    by_cases hab : a < b
    · rw [if_pos hab] at h1; exact absurd h1 (by simp)
    · by_cases hba : b < a
      · rw [if_pos hba] at h2; exact absurd h2 (by simp)
      · have heq : a = b := le_antisymm (not_lt.mp hba) (not_lt.mp hab)
        subst heq
        rw [if_neg hab, if_pos rfl] at h1
        rw [if_neg hab, if_pos rfl] at h2
        rw [strLt_conn as bs h1 h2]

theorem string_eq_of_data {s t : String} (h : s.data = t.data) : s = t := by
  cases s; cases t; exact congrArg String.mk h

theorem tsLe_total (s t : String) : tsLe s t = true ∨ tsLe t s = true := by
  by_cases h1 : tsLe s t = true
  · exact Or.inl h1
  · refine Or.inr ?_
    simp only [tsLe, strLe, Bool.not_eq_true', Bool.not_eq_false] at h1 ⊢
    exact strLt_asymm _ _ h1

theorem tsLe_trans {s t u : String}
    (h1 : tsLe s t = true) (h2 : tsLe t u = true) : tsLe s u = true := by
  simp only [tsLe, strLe, Bool.not_eq_true'] at h1 h2 ⊢
  cases h : strLt u.data s.data with
  | false => rfl
  | true =>
    exfalso
    cases hst : strLt s.data t.data with
    | true => exact absurd h2 (by simp [strLt_trans _ _ _ h hst])
    | false =>
      cases hts : strLt t.data s.data with
      | true => exact absurd h1 (by simp [hts])
      | false =>
        have heq : s.data = t.data := strLt_conn _ _ hst hts
        rw [heq] at h
        exact absurd h2 (by simp [h])

theorem tsLe_antisymm {s t : String}
    (h1 : tsLe s t = true) (h2 : tsLe t s = true) : s = t := by
  simp only [tsLe, strLe, Bool.not_eq_true'] at h1 h2
  exact string_eq_of_data (strLt_conn _ _ h2 h1)

instance : IsTotal ChatTurn tsRel := ⟨fun a b => tsLe_total a.timestamp b.timestamp⟩

instance : IsTrans ChatTurn tsRel := ⟨fun _ _ _ => tsLe_trans⟩

theorem strLt_append_of_strLt : ∀ (b a ys xs : List Char),
    b.length = a.length → strLt b a = true → strLt (b ++ ys) (a ++ xs) = true
  | [], [], _, _, _, h => by simp [strLt] at h
  | [], _ :: _, _, _, hl, _ => by simp at hl
  | _ :: _, [], _, _, hl, _ => by simp at hl
  | b :: bs, a :: as, ys, xs, hl, h => by
    simp only [strLt, List.cons_append] at h ⊢
    by_cases hba : b < a
    · simp [hba]
    · rw [if_neg hba] at h ⊢
      by_cases heq : b = a
      · rw [if_pos heq] at h ⊢
        exact strLt_append_of_strLt bs as ys xs (by simpa using hl) h
      · rw [if_neg heq] at h; exact absurd h (by simp)

theorem strLe_append_cancel {a b xs ys : List Char}
    (hl : a.length = b.length)
    (h : strLe (a ++ xs) (b ++ ys) = true) : strLe a b = true := by
  simp only [strLe, Bool.not_eq_true'] at h ⊢
  cases hv : strLt b a
  · rfl
  · exact absurd h (by simp [strLt_append_of_strLt b a ys xs hl.symm hv])

/-! ## Grouping lemmas -/

theorem joinG_nil : joinG [] = [] := rfl

theorem joinG_cons (k : String) (v : List ChatTurn) (g : Grouped) :
    joinG ((k, v) :: g) = v ++ joinG g := by
  simp [joinG]

theorem mem_joinG {u : ChatTurn} {m : Grouped} :
    u ∈ joinG m ↔ ∃ kv ∈ m, u ∈ kv.2 := by
  simp only [joinG, List.mem_flatten, List.mem_map]
  constructor
  · rintro ⟨l, ⟨kv, hkv, rfl⟩, hu⟩
    exact ⟨kv, hkv, hu⟩
  · rintro ⟨kv, hkv, hu⟩
    exact ⟨kv.2, ⟨kv, hkv, rfl⟩, hu⟩

theorem loadAux_nil (m : Grouped) : loadAux m [] = m := rfl

theorem loadAux_cons (m : Grouped) (c : ChatTurn) (cs : List ChatTurn) :
    loadAux m (c :: cs) = loadAux (addToBucket m (dateOf c.timestamp) c) cs := rfl

theorem loadAux_append (m : Grouped) (l1 l2 : List ChatTurn) :
    loadAux m (l1 ++ l2) = loadAux (loadAux m l1) l2 := by
  simp [loadAux, List.foldl_append]

theorem joinG_addToBucket_perm : ∀ (m : Grouped) (d : String) (t : ChatTurn),
    List.Perm (joinG (addToBucket m d t)) (joinG m ++ [t])
  | [], d, t => by simp [addToBucket, joinG]
  | (k, v) :: m', d, t => by
    by_cases hk : k = d
    · simp only [addToBucket, if_pos hk, joinG_cons, List.append_assoc]
      exact List.Perm.append_left v List.perm_append_comm
    · simp only [addToBucket, if_neg hk, joinG_cons, List.append_assoc]
      have h := List.Perm.append_left v (joinG_addToBucket_perm m' d t)
      simpa using h

theorem joinG_loadAux_perm : ∀ (chats : List ChatTurn) (m : Grouped),
    List.Perm (joinG (loadAux m chats)) (joinG m ++ chats)
  | [], m => by simp [loadAux_nil]
  | c :: cs, m => by
    rw [loadAux_cons]
    refine List.Perm.trans (joinG_loadAux_perm cs _) ?_
    refine List.Perm.trans
      (List.Perm.append_right cs (joinG_addToBucket_perm m (dateOf c.timestamp) c)) ?_
    simp

theorem joinG_groupByDate_perm (chats : List ChatTurn) :
    List.Perm (joinG (groupByDate chats)) chats := by
  simpa using joinG_loadAux_perm chats []

theorem bucketsDated_addToBucket : ∀ {m : Grouped}, bucketsDated m → ∀ t : ChatTurn,
    bucketsDated (addToBucket m (dateOf t.timestamp) t)
  | [], _, t => by
    intro kv hkv u hu
    simp only [addToBucket, List.mem_singleton] at hkv
    subst hkv
    simp only [List.mem_singleton] at hu
    subst hu
    rfl
  | (k, v) :: m', h, t => by
    by_cases hk : k = dateOf t.timestamp
    · simp only [addToBucket, if_pos hk]
      intro kv hkv u hu
      rcases List.mem_cons.mp hkv with rfl | hkv'
      · rcases List.mem_append.mp hu with hu' | hu'
        · exact h (k, v) (List.mem_cons_self _ _) u hu'
        · simp only [List.mem_singleton] at hu'
          subst hu'
          exact hk.symm
      · exact h kv (List.mem_cons_of_mem _ hkv') u hu
    · simp only [addToBucket, if_neg hk]
      intro kv hkv u hu
      rcases List.mem_cons.mp hkv with rfl | hkv'
      · exact h (k, v) (List.mem_cons_self _ _) u hu
      · exact bucketsDated_addToBucket (fun kv h' => h kv (List.mem_cons_of_mem _ h')) t
          kv hkv' u hu

theorem bucketsDated_loadAux : ∀ (chats : List ChatTurn) {m : Grouped},
    bucketsDated m → bucketsDated (loadAux m chats)
  | [], _, h => h
  | c :: cs, m, h => by
    rw [loadAux_cons]
    exact bucketsDated_loadAux cs (bucketsDated_addToBucket h c)

theorem bucketsDated_groupByDate (chats : List ChatTurn) :
    bucketsDated (groupByDate chats) :=
  bucketsDated_loadAux chats (by intro kv h; simp at h)

theorem mem_keys_addToBucket : ∀ {x : String} {m : Grouped} {d : String} {t : ChatTurn},
    x ∈ (addToBucket m d t).map Prod.fst → x ∈ m.map Prod.fst ∨ x = d
  | x, [], d, t, h => by
    simp only [addToBucket, List.map_cons, List.map_nil, List.mem_singleton] at h
    exact Or.inr h
  | x, (k, v) :: m', d, t, h => by
    by_cases hk : k = d
    · simp only [addToBucket, if_pos hk, List.map_cons, List.mem_cons] at h
      rcases h with rfl | h'
      · exact Or.inl (by simp)
      · exact Or.inl (by simp [h'])
    · simp only [addToBucket, if_neg hk, List.map_cons, List.mem_cons] at h
      rcases h with rfl | h'
      · exact Or.inl (by simp)
      · rcases mem_keys_addToBucket h' with h'' | rfl
        · exact Or.inl (by simp [h''])
        · exact Or.inr rfl

theorem nodupKeys_addToBucket : ∀ {m : Grouped} (d : String) (t : ChatTurn),
    (m.map Prod.fst).Nodup → ((addToBucket m d t).map Prod.fst).Nodup
  | [], d, t, _ => by simp [addToBucket]
  | (k, v) :: m', d, t, h => by
    simp only [List.map_cons, List.nodup_cons] at h
    by_cases hk : k = d
    · simp only [addToBucket, if_pos hk, List.map_cons, List.nodup_cons]
      exact h
    · simp only [addToBucket, if_neg hk, List.map_cons, List.nodup_cons]
      refine ⟨fun hmem => ?_, nodupKeys_addToBucket d t h.2⟩
      rcases mem_keys_addToBucket hmem with h' | rfl
      · exact h.1 h'
      · exact hk rfl

theorem nodupKeys_loadAux : ∀ (chats : List ChatTurn) {m : Grouped},
    (m.map Prod.fst).Nodup → ((loadAux m chats).map Prod.fst).Nodup
  | [], _, h => h
  | c :: cs, m, h => by
    rw [loadAux_cons]
    exact nodupKeys_loadAux cs (nodupKeys_addToBucket _ c h)

theorem nodupKeys_groupByDate (chats : List ChatTurn) :
    ((groupByDate chats).map Prod.fst).Nodup :=
  nodupKeys_loadAux chats (by simp)

theorem addToBucket_decomp : ∀ (m : Grouped) (d : String) (t : ChatTurn),
    (m.map Prod.fst).Nodup → bucketsDated m →
    ∃ A B, joinG m = A ++ B ∧ joinG (addToBucket m d t) = A ++ t :: B ∧
      ∀ u ∈ B, dateOf u.timestamp ≠ d
  | [], d, t, _, _ => ⟨[], [], rfl, by simp [addToBucket, joinG], by simp⟩
  | (k, v) :: m', d, t, hnd, hbd => by
    simp only [List.map_cons, List.nodup_cons] at hnd
    have hbd' : bucketsDated m' := fun kv h' => hbd kv (List.mem_cons_of_mem _ h')
    by_cases hk : k = d
    · refine ⟨v, joinG m', joinG_cons k v m', ?_, ?_⟩
      · simp only [addToBucket, if_pos hk, joinG_cons]
        simp
      · intro u hu hdate
        rcases mem_joinG.mp hu with ⟨kv, hkv, hukv⟩
        have : dateOf u.timestamp = kv.1 := hbd' kv hkv u hukv
        rw [this] at hdate
        subst hdate
        subst hk
        exact hnd.1 (List.mem_map.mpr ⟨kv, hkv, rfl⟩)
    · rcases addToBucket_decomp m' d t hnd.2 hbd' with ⟨A, B, hAB, hABt, hB⟩
      refine ⟨v ++ A, B, ?_, ?_, hB⟩
      · rw [joinG_cons, hAB, List.append_assoc]
      · simp only [addToBucket, if_neg hk, joinG_cons]
        rw [hABt, List.append_assoc]

/-! ## Well-formed timestamps and the date-sandwich lemma -/

theorem takeUntilSpace_append : ∀ (d r : List Char), ' ' ∉ d →
    takeUntilSpace (d ++ ' ' :: r) = d
  | [], r, _ => by simp [takeUntilSpace]
  | c :: d', r, h => by
    have hc : c ≠ ' ' := fun e => h (e ▸ List.mem_cons_self c d')
    show takeUntilSpace (c :: (d' ++ ' ' :: r)) = c :: d'
    rw [takeUntilSpace, if_neg hc]
    exact congrArg (c :: ·) (takeUntilSpace_append d' r (fun e => h (List.mem_cons_of_mem c e)))

theorem wfTs_decomp {l : List Char} (h : wfTs l) :
    l = l.take 10 ++ ' ' :: l.drop 11 ∧ (l.take 10).length = 10 ∧ ' ' ∉ l.take 10 := by
  obtain ⟨h1, h2, h3⟩ := h
  refine ⟨?_, h1, h2⟩
  cases hd : l.drop 10 with
  | nil => rw [hd] at h3; simp at h3
  | cons c tl =>
    rw [hd] at h3
    simp only [List.head?_cons, Option.some.injEq] at h3
    subst h3
    have h11 : l.drop 11 = tl := by
      have hdt : l.drop 11 = (l.drop 10).tail := by
        rw [← List.drop_one, List.drop_drop]
      rw [hdt, hd, List.tail_cons]
    rw [h11]
    conv_lhs => rw [← List.take_append_drop 10 l, hd]

theorem dateOf_data_of_wf {s : String} (h : wfTs s.data) :
    (dateOf s).data = s.data.take 10 := by
  obtain ⟨hdec, _, hnosp⟩ := wfTs_decomp h
  show (takeUntilSpace s.data) = s.data.take 10
  conv_lhs => rw [hdec]
  exact takeUntilSpace_append _ _ hnosp

theorem date_sandwich {x y z : ChatTurn}
    (hx : wfTs x.timestamp.data) (hy : wfTs y.timestamp.data) (hz : wfTs z.timestamp.data)
    (hxy : tsRel x y) (hyz : tsRel y z)
    (hdate : dateOf x.timestamp = dateOf z.timestamp) :
    dateOf y.timestamp = dateOf x.timestamp := by
  obtain ⟨hxd, hxl, _⟩ := wfTs_decomp hx
  obtain ⟨hyd, hyl, _⟩ := wfTs_decomp hy
  obtain ⟨hzd, hzl, _⟩ := wfTs_decomp hz
  have hdxz : x.timestamp.data.take 10 = z.timestamp.data.take 10 := by
    have := congrArg String.data hdate
    rwa [dateOf_data_of_wf hx, dateOf_data_of_wf hz] at this
  have hle1 : strLe (x.timestamp.data.take 10) (y.timestamp.data.take 10) = true := by
    apply strLe_append_cancel (hxl.trans hyl.symm)
    unfold tsRel tsLe at hxy
    rw [← hxd, ← hyd]
    exact hxy
  have hle2 : strLe (y.timestamp.data.take 10) (x.timestamp.data.take 10) = true := by
    rw [hdxz]
    apply strLe_append_cancel (hyl.trans hzl.symm)
    unfold tsRel tsLe at hyz
    rw [← hyd, ← hzd]
    exact hyz
  have heq : y.timestamp.data.take 10 = x.timestamp.data.take 10 := by
    simp only [strLe, Bool.not_eq_true'] at hle1 hle2
    exact strLt_conn _ _ hle1 hle2
  apply string_eq_of_data
  rw [dateOf_data_of_wf hy, dateOf_data_of_wf hx, heq]

/-! ## Stable-sort lemmas -/

theorem orderedInsert_append_last {α : Type} {r : α → α → Prop} [DecidableRel r]
    {a t : α} (hat : r a t) :
    ∀ L : List α, List.orderedInsert r a (L ++ [t]) = List.orderedInsert r a L ++ [t]
  | [] => by simp [List.orderedInsert, if_pos hat]
  | b :: L' => by
    by_cases hab : r a b
    · simp [List.orderedInsert, if_pos hab]
    · simp only [List.cons_append, List.orderedInsert, if_neg hab]
      show b :: List.orderedInsert r a (L' ++ [t]) = b :: (List.orderedInsert r a L' ++ [t])
      rw [orderedInsert_append_last hat L']

theorem orderedInsert_eq_append {α : Type} {r : α → α → Prop} [DecidableRel r] {t : α} :
    ∀ {L : List α}, (∀ u ∈ L, ¬ r t u) → List.orderedInsert r t L = L ++ [t]
  | [], _ => rfl
  | b :: L', h => by
    have hb : ¬ r t b := h b (List.mem_cons_self _ _)
    simp only [List.orderedInsert, if_neg hb, List.cons_append]
    rw [orderedInsert_eq_append (fun u hu => h u (List.mem_cons_of_mem _ hu))]

theorem insertionSort_append_last {α : Type} {r : α → α → Prop} [DecidableRel r] {t : α} :
    ∀ (A B : List α), (∀ u ∈ A, r u t) → (∀ u ∈ B, ¬ r t u) →
      List.insertionSort r (A ++ t :: B) = List.insertionSort r (A ++ B) ++ [t]
  | [], B, _, hB => by
    simp only [List.nil_append, List.insertionSort]
    exact orderedInsert_eq_append (fun u hu => hB u ((List.mem_insertionSort r).mp hu))
  | a :: A', B, hA, hB => by
    simp only [List.cons_append, List.insertionSort]
    show List.orderedInsert r a (List.insertionSort r (A' ++ t :: B))
        = List.orderedInsert r a (List.insertionSort r (A' ++ B)) ++ [t]
    rw [insertionSort_append_last A' B (fun u hu => hA u (List.mem_cons_of_mem _ hu)) hB]
    rw [orderedInsert_append_last (hA a (List.mem_cons_self _ _))]

/-! ## Sorted well-formed lists regroup to themselves -/

theorem dropWhile_not_date {t : ChatTurn} :
    ∀ Y : List ChatTurn, List.Sorted tsRel (t :: Y) → wfAll (t :: Y) →
      ∀ z ∈ Y.dropWhile (fun y => dateOf y.timestamp == dateOf t.timestamp),
        ¬ dateOf z.timestamp = dateOf t.timestamp
  | [], _, _ => by intro z hz; simp at hz
  | y :: Y'', hs, hw => by
    by_cases hp : dateOf y.timestamp = dateOf t.timestamp
    · rw [List.dropWhile_cons_of_pos (by simpa using hp)]
      have hs' : List.Sorted tsRel (t :: Y'') := by
        have hsub : (t :: Y'').Sublist (t :: y :: Y'') :=
          List.Sublist.cons₂ t (List.sublist_cons_self y Y'')
        exact List.Pairwise.sublist hsub hs
      have hw' : wfAll (t :: Y'') := fun u hu => hw u (by
        rcases List.mem_cons.mp hu with rfl | hu'
        · exact List.mem_cons_self _ _
        · exact List.mem_cons_of_mem _ (List.mem_cons_of_mem _ hu'))
      exact dropWhile_not_date Y'' hs' hw'
    · rw [List.dropWhile_cons_of_neg (by simpa using hp)]
      intro z hz
      rcases List.mem_cons.mp hz with rfl | hz'
      · exact hp
      · intro hzd
        apply hp
        have hty : tsRel t y := (List.sorted_cons.mp hs).1 y (List.mem_cons_self _ _)
        have hyz : tsRel y z := by
          have hs2 : List.Sorted tsRel (y :: Y'') := (List.sorted_cons.mp hs).2
          exact (List.sorted_cons.mp hs2).1 z hz'
        have hwt : wfTs t.timestamp.data := hw t (List.mem_cons_self _ _)
        have hwy : wfTs y.timestamp.data :=
          hw y (List.mem_cons_of_mem _ (List.mem_cons_self _ _))
        have hwz : wfTs z.timestamp.data :=
          hw z (List.mem_cons_of_mem _ (List.mem_cons_of_mem _ hz'))
        exact date_sandwich hwt hwy hwz hty hyz hzd.symm

theorem loadAux_all_same_date {d : String} :
    ∀ (R : List ChatTurn) (acc : List ChatTurn),
      (∀ r ∈ R, dateOf r.timestamp = d) → loadAux [(d, acc)] R = [(d, acc ++ R)]
  | [], acc, _ => by simp [loadAux_nil]
  | r :: R', acc, h => by
    rw [loadAux_cons]
    have hd : dateOf r.timestamp = d := h r (List.mem_cons_self _ _)
    have : addToBucket [(d, acc)] (dateOf r.timestamp) r = [(d, acc ++ [r])] := by
      simp [addToBucket, hd]
    rw [this, loadAux_all_same_date R' (acc ++ [r]) (fun u hu => h u (List.mem_cons_of_mem _ hu))]
    simp

theorem loadAux_skip_bucket {d : String} {R : List ChatTurn} :
    ∀ (Z : List ChatTurn) (m : Grouped), (∀ z ∈ Z, dateOf z.timestamp ≠ d) →
      loadAux ((d, R) :: m) Z = (d, R) :: loadAux m Z
  | [], m, _ => by simp [loadAux_nil]
  | z :: Z', m, h => by
    rw [loadAux_cons, loadAux_cons]
    have hz : dateOf z.timestamp ≠ d := h z (List.mem_cons_self _ _)
    have hne : ¬ d = dateOf z.timestamp := fun e => hz e.symm
    have : addToBucket ((d, R) :: m) (dateOf z.timestamp) z
        = (d, R) :: addToBucket m (dateOf z.timestamp) z := by
      simp [addToBucket, hne]
    rw [this, loadAux_skip_bucket Z' _ (fun u hu => h u (List.mem_cons_of_mem _ hu))]

theorem joinG_groupByDate_of_sorted :
    ∀ (n : Nat) (Y : List ChatTurn), Y.length ≤ n → List.Sorted tsRel Y → wfAll Y →
      joinG (groupByDate Y) = Y
  | 0, Y, hn, _, _ => by
    have : Y = [] := List.eq_nil_of_length_eq_zero (Nat.le_zero.mp hn)
    subst this
    rfl
  | n + 1, [], _, _, _ => rfl
  | n + 1, t :: Y', hn, hs, hw => by
    have hRdate : ∀ r ∈ Y'.takeWhile (fun y => dateOf y.timestamp == dateOf t.timestamp),
        dateOf r.timestamp = dateOf t.timestamp := by
      intro r hr
      have := List.mem_takeWhile_imp hr
      simpa using this
    have hZdate : ∀ z ∈ Y'.dropWhile (fun y => dateOf y.timestamp == dateOf t.timestamp),
        dateOf z.timestamp ≠ dateOf t.timestamp :=
      fun z hz => dropWhile_not_date Y' hs hw z hz
    have hsplit : t :: (Y'.takeWhile (fun y => dateOf y.timestamp == dateOf t.timestamp)
        ++ Y'.dropWhile (fun y => dateOf y.timestamp == dateOf t.timestamp)) = t :: Y' := by
      rw [List.takeWhile_append_dropWhile]
    have hgroup : groupByDate (t :: Y')
        = (dateOf t.timestamp,
            t :: Y'.takeWhile (fun y => dateOf y.timestamp == dateOf t.timestamp))
          :: groupByDate
              (Y'.dropWhile (fun y => dateOf y.timestamp == dateOf t.timestamp)) := by
      conv_lhs => rw [← hsplit]
      show loadAux []
        (t :: (Y'.takeWhile (fun y => dateOf y.timestamp == dateOf t.timestamp)
          ++ Y'.dropWhile (fun y => dateOf y.timestamp == dateOf t.timestamp))) = _
      rw [loadAux_cons]
      have ha : addToBucket [] (dateOf t.timestamp) t = [(dateOf t.timestamp, [t])] := rfl
      rw [ha, loadAux_append,
        loadAux_all_same_date
          (Y'.takeWhile (fun y => dateOf y.timestamp == dateOf t.timestamp)) [t] hRdate,
        loadAux_skip_bucket
          (Y'.dropWhile (fun y => dateOf y.timestamp == dateOf t.timestamp)) [] hZdate]
      rfl
    have hZlen :
        (Y'.dropWhile (fun y => dateOf y.timestamp == dateOf t.timestamp)).length ≤ n := by
      have h1 : (Y'.dropWhile (fun y => dateOf y.timestamp == dateOf t.timestamp)).length
          ≤ Y'.length := List.Sublist.length_le (List.dropWhile_sublist _)
      simp only [List.length_cons] at hn
      omega
    have hZsorted : List.Sorted tsRel
        (Y'.dropWhile (fun y => dateOf y.timestamp == dateOf t.timestamp)) :=
      List.Pairwise.sublist
        ((List.dropWhile_sublist _).trans (List.sublist_cons_self t Y')) hs
    have hZwf : wfAll (Y'.dropWhile (fun y => dateOf y.timestamp == dateOf t.timestamp)) :=
      fun u hu =>
        hw u (List.mem_cons_of_mem t (List.Sublist.mem hu (List.dropWhile_sublist _)))
    have hrec := joinG_groupByDate_of_sorted n _ hZlen hZsorted hZwf
    rw [hgroup, joinG_cons, hrec]
    conv_rhs => rw [← hsplit]
    rfl

/-! ## Deletion lemmas -/

theorem deleteIndicesFrom_of_lt : ∀ (b : List ChatTurn) (i : Nat) (idxs : List Nat),
    (∀ j ∈ idxs, j < i) → deleteIndicesFrom i idxs b = b
  | [], _, _, _ => rfl
  | c :: cs, i, idxs, h => by
    have hni : ¬ idxs.contains i = true := by
      simp only [List.contains, List.elem_eq_mem, decide_eq_true_eq]
      exact fun hmem => absurd (h i hmem) (lt_irrefl i)
    rw [deleteIndicesFrom, if_neg hni,
      deleteIndicesFrom_of_lt cs (i + 1) idxs (fun j hj => Nat.lt_succ_of_lt (h j hj))]

theorem deleteIndicesFrom_single : ∀ (b : List ChatTurn) (i u : Nat),
    deleteIndicesFrom i [i + u] b = b.take u ++ b.drop (u + 1)
  | [], i, u => by simp [deleteIndicesFrom]
  | c :: cs, i, 0 => by
    have hc : ([i + 0] : List Nat).contains i = true := by simp
    rw [deleteIndicesFrom, if_pos hc,
      deleteIndicesFrom_of_lt cs (i + 1) [i + 0] (by simp [Nat.lt_succ_self])]
    simp
  | c :: cs, i, u + 1 => by
    have hc : ¬ ([i + (u + 1)] : List Nat).contains i = true := by simp
    rw [deleteIndicesFrom, if_neg hc]
    have harith : i + (u + 1) = (i + 1) + u := by omega
    rw [harith, deleteIndicesFrom_single cs (i + 1) u]
    simp

theorem deleteIndicesFrom_pair_tail : ∀ (cs : List ChatTurn) (i : Nat),
    deleteIndicesFrom (i + 1) [i, i + 1] cs = cs.drop 1
  | [], _ => rfl
  | c' :: cs', i => by
    have hc : ([i, i + 1] : List Nat).contains (i + 1) = true := by simp
    rw [deleteIndicesFrom, if_pos hc,
      deleteIndicesFrom_of_lt cs' (i + 2) [i, i + 1] (by intro j hj; simp at hj; omega)]
    simp

theorem deleteIndicesFrom_pair : ∀ (b : List ChatTurn) (i u : Nat),
    deleteIndicesFrom i [i + u, i + u + 1] b = b.take u ++ b.drop (u + 2)
  | [], i, u => by simp [deleteIndicesFrom]
  | c :: cs, i, 0 => by
    have hc : ([i + 0, i + 0 + 1] : List Nat).contains i = true := by simp
    rw [deleteIndicesFrom, if_pos hc]
    have h0 : (i + 0 : Nat) = i := rfl
    rw [h0] at hc ⊢
    rw [deleteIndicesFrom_pair_tail cs i]
    simp
  | c :: cs, i, u + 1 => by
    have hc : ¬ ([i + (u + 1), i + (u + 1) + 1] : List Nat).contains i = true := by
      simp
      omega
    rw [deleteIndicesFrom, if_neg hc]
    have harith1 : i + (u + 1) = (i + 1) + u := by omega
    rw [harith1, deleteIndicesFrom_pair cs (i + 1) u]
    simp

theorem deleteIndices_single (b : List ChatTurn) (u : Nat) :
    deleteIndices b [u] = b.take u ++ b.drop (u + 1) := by
  have := deleteIndicesFrom_single b 0 u
  simpa [deleteIndices] using this

theorem deleteIndices_pair (b : List ChatTurn) (u : Nat) :
    deleteIndices b [u, u + 1] = b.take u ++ b.drop (u + 2) := by
  have := deleteIndicesFrom_pair b 0 u
  simpa [deleteIndices] using this

/-! ## Pairing-scan lemmas -/

theorem pairExchangeIdx_span_aux : ∀ (n : Nat) (chats : List ChatTurn), chats.length ≤ n →
    ∀ (i : Nat) (p : Nat × Option Nat), p ∈ pairExchangeIdx i chats →
      p.2 = none ∨ p.2 = some (p.1 + 1)
  | 0, chats, hn, i, p, hp => by
    have : chats = [] := List.eq_nil_of_length_eq_zero (Nat.le_zero.mp hn)
    subst this
    simp [pairExchangeIdx] at hp
  | n + 1, [], _, i, p, hp => by simp [pairExchangeIdx] at hp
  | n + 1, t :: rest, hn, i, p, hp => by
    by_cases hu : t.user = "You"
    · cases rest with
      | nil =>
        simp only [pairExchangeIdx, if_pos hu, List.mem_singleton] at hp
        subst hp
        exact Or.inl rfl
      | cons t2 rest2 =>
        by_cases ha : isAssistantTag t2.user
        · simp only [pairExchangeIdx, if_pos hu, if_pos ha, List.mem_cons] at hp
          rcases hp with rfl | hp'
          · exact Or.inr rfl
          · exact pairExchangeIdx_span_aux n rest2
              (by simp only [List.length_cons] at hn; omega) (i + 2) p hp'
        · simp only [pairExchangeIdx, if_pos hu, if_neg ha, List.mem_cons] at hp
          rcases hp with rfl | hp'
          · exact Or.inl rfl
          · exact pairExchangeIdx_span_aux n (t2 :: rest2)
              (by simp only [List.length_cons] at hn ⊢; omega) (i + 1) p hp'
    · rw [pairExchangeIdx.eq_def] at hp
      simp only [if_neg hu, List.mem_cons] at hp
      rcases hp with rfl | hp'
      · exact Or.inl rfl
      · exact pairExchangeIdx_span_aux n rest
          (by simp only [List.length_cons] at hn; omega) (i + 1) p hp'

theorem pairExchangeIdx_flatten_aux : ∀ (n : Nat) (chats : List ChatTurn), chats.length ≤ n →
    ∀ i, ((pairExchangeIdx i chats).map exSpan).flatten = List.range' i chats.length
  | 0, chats, hn, i => by
    have : chats = [] := List.eq_nil_of_length_eq_zero (Nat.le_zero.mp hn)
    subst this
    rfl
  | n + 1, [], _, i => rfl
  | n + 1, t :: rest, hn, i => by
    by_cases hu : t.user = "You"
    · cases rest with
      | nil =>
        simp only [pairExchangeIdx, if_pos hu, List.map_cons, List.map_nil,
          List.flatten_cons, List.flatten_nil, exSpan, List.length_cons, List.length_nil]
        rw [List.range'_succ]
        rfl
      | cons t2 rest2 =>
        by_cases ha : isAssistantTag t2.user
        · simp only [pairExchangeIdx, if_pos hu, if_pos ha, List.map_cons,
            List.flatten_cons, exSpan, List.length_cons]
          rw [pairExchangeIdx_flatten_aux n rest2
            (by simp only [List.length_cons] at hn; omega) (i + 2)]
          conv_rhs => rw [List.range'_succ, List.range'_succ]
          rfl
        · simp only [pairExchangeIdx, if_pos hu, if_neg ha, List.map_cons,
            List.flatten_cons, exSpan, List.length_cons]
          rw [pairExchangeIdx_flatten_aux n (t2 :: rest2)
            (by simp only [List.length_cons] at hn ⊢; omega) (i + 1)]
          simp only [List.length_cons]
          conv_rhs => rw [List.range'_succ]
          rfl
    · rw [pairExchangeIdx.eq_def]
      simp only [if_neg hu, List.map_cons, List.flatten_cons, exSpan, List.length_cons]
      rw [pairExchangeIdx_flatten_aux n rest
        (by simp only [List.length_cons] at hn; omega) (i + 1)]
      conv_rhs => rw [List.range'_succ]
      rfl

/-! ## Streaming lemmas -/

theorem generate_contentLine_cons (s : String) (rest : List (Option Json)) :
    generate_ai_response (contentLine s :: rest) = Json.str s :: generate_ai_response rest := rfl

theorem generate_content_lines : ∀ (pre : List String) (post : List (Option Json)),
    generate_ai_response (pre.map contentLine ++ none :: post) = pre.map Json.str
  | [], _ => rfl
  | s :: pre', post => by
    simp only [List.map_cons, List.cons_append]
    rw [generate_contentLine_cons, generate_content_lines pre' post]

theorem assembleFragments_aux : ∀ (pre : List String) (acc : String),
    (pre.map Json.str).foldl
        (fun acc f => match f with | .str s => acc ++ s | _ => acc) acc
      = pre.foldl (fun a b => a ++ b) acc
  | [], _ => rfl
  | s :: pre', acc => by
    simp only [List.map_cons, List.foldl_cons]
    exact assembleFragments_aux pre' (acc ++ s)

theorem assembleFragments_strs (pre : List String) :
    assembleFragments (pre.map Json.str) = pre.foldl (fun a b => a ++ b) "" :=
  assembleFragments_aux pre ""

/-! ## Full read-path lemmas -/

theorem chatDate_encodeTurn (t : ChatTurn) :
    chatDate (encodeTurn t) = .ok (dateOf t.timestamp) := rfl

theorem addToBucketJ_encode : ∀ (m : Grouped) (d : String) (t : ChatTurn),
    addToBucketJ (encodeGrouped m) d (encodeTurn t) = encodeGrouped (addToBucket m d t)
  | [], _, _ => rfl
  | (k, v) :: m', d, t => by
    by_cases hk : k = d
    · simp only [encodeGrouped, List.map_cons, addToBucketJ, addToBucket, if_pos hk,
        List.map_append, List.map_nil]
    · simp only [encodeGrouped, List.map_cons, addToBucketJ, addToBucket, if_neg hk]
      have h := addToBucketJ_encode m' d t
      simp only [encodeGrouped] at h
      rw [h]

theorem groupLoop_encode : ∀ (cs : List ChatTurn) (m : Grouped),
    groupLoop (encodeGrouped m) (cs.map encodeTurn) = .ok (encodeGrouped (loadAux m cs))
  | [], _ => rfl
  | c :: cs', m => by
    simp only [List.map_cons, groupLoop, chatDate_encodeTurn]
    rw [addToBucketJ_encode, loadAux_cons]
    exact groupLoop_encode cs' _

theorem load_full_content (cs : List ChatTurn) :
    load_chat_history_full (.content cs)
      = .ok (encodeGrouped (load_chat_history (.content cs))) := by
  show groupLoop [] (cs.map encodeTurn) = _
  exact groupLoop_encode cs []

/-! ## Claim theorems -/

/-- C1, counterexample: `flatten_chat_history` does NOT return the turns in
ascending chronological order of their `dd-mm-YYYY HH:MM:SS` timestamps.
On the grouped history loaded from `[turnJan2, turnFeb1]` (2 January 2025
and 1 February 2025), flatten returns the February turn first, because it
sorts by the raw timestamp string and `"01-02-2025 …" < "02-01-2025 …"`
lexicographically, while chronologically 2 January precedes 1 February. -/
theorem C1_counterexample :
    flatten_chat_history (load_chat_history (.content [turnJan2, turnFeb1]))
      = [turnFeb1, turnJan2]
    ∧ chronoKeySpec turnJan2.timestamp < chronoKeySpec turnFeb1.timestamp
    ∧ ¬ List.Pairwise (fun a b => chronoKeySpec a.timestamp ≤ chronoKeySpec b.timestamp)
        (flatten_chat_history (load_chat_history (.content [turnJan2, turnFeb1]))) :=
  ⟨by decide, by decide, by decide⟩

/-- C1, amended: `flatten_chat_history` returns a permutation of the
concatenation of all date buckets, re-sorted ascending by the timestamp
STRING under lexicographic comparison (the order `list.sort` with a string
key uses).  Within a single day this coincides with chronological order,
but across days the `dd-mm-YYYY` layout makes the two orders differ. -/
theorem C1_flatten_lex_sorted (g : Grouped) :
    List.Perm (flatten_chat_history g) (joinG g)
      ∧ List.Sorted tsRel (flatten_chat_history g) :=
  ⟨List.perm_insertionSort tsRel (joinG g), List.sorted_insertionSort tsRel (joinG g)⟩

/-- C2: for every well-formed collection `X`, saving the flattened load of
`X`, re-loading and re-flattening returns exactly the same
timestamp-ordered sequence:
`flatten(load(save_all(flatten(load(X))))) = flatten(load(X))`. -/
theorem C2_roundtrip (X : List ChatTurn) (h : ∀ u ∈ X, wfTs u.timestamp.data) :
    flatten_chat_history (load_chat_history (save_all_chat_history
        (flatten_chat_history (load_chat_history (.content X)))))
      = flatten_chat_history (load_chat_history (.content X)) := by
  have hsorted : List.Sorted tsRel (flatten_chat_history (load_chat_history (.content X))) :=
    List.sorted_insertionSort tsRel _
  have hwf : wfAll (flatten_chat_history (load_chat_history (.content X))) := by
    intro u hu
    apply h
    have h1 : u ∈ joinG (groupByDate X) :=
      (List.mem_insertionSort tsRel).mp hu
    exact (joinG_groupByDate_perm X).mem_iff.mp h1
  have hjoin : joinG (groupByDate (flatten_chat_history (load_chat_history (.content X))))
      = flatten_chat_history (load_chat_history (.content X)) :=
    joinG_groupByDate_of_sorted
      (flatten_chat_history (load_chat_history (.content X))).length _ (le_refl _) hsorted hwf
  show List.insertionSort tsRel (joinG (groupByDate
      (flatten_chat_history (load_chat_history (.content X)))))
    = flatten_chat_history (load_chat_history (.content X))
  rw [hjoin]
  exact List.Sorted.insertionSort_eq hsorted

/-- C2, witness: the round trip evaluated on the concrete two-day
collection `[turnJan2, turnFeb1]`. -/
theorem C2_roundtrip_witness :
    (∀ u ∈ [turnJan2, turnFeb1], wfTs u.timestamp.data)
    ∧ flatten_chat_history (load_chat_history (save_all_chat_history
        (flatten_chat_history (load_chat_history (.content [turnJan2, turnFeb1])))))
      = flatten_chat_history (load_chat_history (.content [turnJan2, turnFeb1])) :=
  ⟨by decide, C2_roundtrip [turnJan2, turnFeb1] (by decide)⟩

/-- C3: the exchange-pairing scan pairs a turn tagged with the user tag
`"You"` with the immediately following turn exactly when that turn's tag
is in the assistant tag set, makes any other turn a one-element exchange,
and on `[user:"hi", assistant:"hello", user:"bye"]` produces exactly the
exchanges `[user:"hi", assistant:"hello"]` and `[user:"bye"]`. -/
theorem C3_exchange_pairing :
    (∀ (t t2 : ChatTurn) (rest : List ChatTurn), t.user = "You" → isAssistantTag t2.user →
        pairExchanges (t :: t2 :: rest) = [t, t2] :: pairExchanges rest)
    ∧ (∀ (t t2 : ChatTurn) (rest : List ChatTurn), t.user = "You" → ¬ isAssistantTag t2.user →
        pairExchanges (t :: t2 :: rest) = [t] :: pairExchanges (t2 :: rest))
    ∧ (∀ (t : ChatTurn) (rest : List ChatTurn), t.user ≠ "You" →
        pairExchanges (t :: rest) = [t] :: pairExchanges rest)
    ∧ pairExchanges [turnHi, turnHello, turnBye] = [[turnHi, turnHello], [turnBye]] := by
  refine ⟨?_, ?_, ?_, by decide⟩
  · intro t t2 rest hu ha
    simp only [pairExchanges, if_pos hu, if_pos ha]
  · intro t t2 rest hu ha
    simp only [pairExchanges, if_pos hu, if_neg ha]
  · intro t rest hu
    rw [pairExchanges.eq_def]
    simp only [if_neg hu]

/-- C3, witness: the three pairing rules applied at concrete turns. -/
theorem C3_exchange_pairing_witness :
    pairExchanges [turnHi, turnHello] = [[turnHi, turnHello]]
    ∧ pairExchanges [turnHi, turnBye] = [[turnHi], [turnBye]]
    ∧ pairExchanges [turnHello] = [[turnHello]] := by
  refine ⟨?_, ?_, ?_⟩
  · rw [C3_exchange_pairing.1 turnHi turnHello [] rfl (Or.inr rfl)]
    rfl
  · rw [C3_exchange_pairing.2.1 turnHi turnBye [] rfl (by decide)]
    rfl
  · rw [C3_exchange_pairing.2.2.1 turnHello [] (by decide)]
    rfl

/-- C4: deleting an exchange removes exactly the recorded one or two
indices from the date's bucket — a single recorded index `u` removes
position `u`, a recorded pair removes positions `u` and `u+1`, and every
pair the scan records spans exactly the consecutive indices `u, u+1` —
and on the bucket `[user:"hi", assistant:"hello", user:"bye"]`, deleting
the first exchange leaves the bucket `[user:"bye"]` and persists exactly
that one turn. -/
theorem C4_delete_exchange :
    (∀ (b : List ChatTurn) (u : Nat), deleteIndices b [u] = b.take u ++ b.drop (u + 1))
    ∧ (∀ (b : List ChatTurn) (u : Nat), deleteIndices b [u, u + 1] = b.take u ++ b.drop (u + 2))
    ∧ (∀ (b : List ChatTurn) (p : Nat × Option Nat), p ∈ pairExchangeIdx 0 b →
        p.2 = none ∨ p.2 = some (p.1 + 1))
    ∧ pairExchangeIdx 0 [turnHi, turnHello, turnBye] = [(0, some 1), (2, none)]
    ∧ deleteExchange (load_chat_history (.content [turnHi, turnHello, turnBye]))
        "01-01-2025" 0 (some 1)
      = ([("01-01-2025", [turnBye])], [turnBye]) := by
  refine ⟨deleteIndices_single, deleteIndices_pair, ?_, by decide, by decide⟩
  intro b p hp
  exact pairExchangeIdx_span_aux b.length b (le_refl _) 0 p hp

/-- C4, witness: the span rule applied to the first exchange the scan
records on the example bucket. -/
theorem C4_delete_exchange_witness :
    ((0, some 1) : Nat × Option Nat) ∈ pairExchangeIdx 0 [turnHi, turnHello, turnBye]
    ∧ (((0, some 1) : Nat × Option Nat).2 = none
       ∨ ((0, some 1) : Nat × Option Nat).2 = some (((0, some 1) : Nat × Option Nat).1 + 1)) :=
  ⟨by decide, C4_delete_exchange.2.2.1 [turnHi, turnHello, turnBye] (0, some 1) (by decide)⟩

/-- C5, counterexample: with "timestamp greater or equal" read
chronologically — timestamps are date+time values — the claim fails.
The file holds a turn stamped 31 January 2025; appending a turn stamped
1 February 2025 (chronologically later, so the claim's hypothesis
holds) yields `flatten(load())` = `[turnFeb1, turnJan31]`: the new turn
is placed FIRST, not last, because the sort compares the timestamp
strings and `"01-02-2025 …" < "31-01-2025 …"` lexicographically. -/
theorem C5_counterexample :
    chronoKeySpec turnJan31.timestamp < chronoKeySpec turnFeb1.timestamp
    ∧ flatten_chat_history (load_chat_history
          (append_chat_entry (.content [turnJan31]) turnFeb1))
      = [turnFeb1, turnJan31]
    ∧ flatten_chat_history (load_chat_history
          (append_chat_entry (.content [turnJan31]) turnFeb1))
      ≠ flatten_chat_history (load_chat_history (.content [turnJan31])) ++ [turnFeb1] :=
  ⟨by decide, by decide, by decide⟩

/-- C5, amended: after appending a turn `t` whose timestamp STRING is
greater than or equal to every existing timestamp string in the
lexicographic order the sort key uses (within a single day this
coincides with chronological order), `flatten(load())` equals the
previous `flatten(load())` with `t` appended as the last element —
every prior element is unchanged and keeps its relative position. -/
theorem C5_append_preserves_order (X : List ChatTurn) (t : ChatTurn)
    (h : ∀ u ∈ X, tsLe u.timestamp t.timestamp = true) :
    flatten_chat_history (load_chat_history (append_chat_entry (.content X) t))
      = flatten_chat_history (load_chat_history (.content X)) ++ [t] := by
  obtain ⟨A, B, hAB, hABt, hB⟩ :=
    addToBucket_decomp (groupByDate X) (dateOf t.timestamp) t
      (nodupKeys_groupByDate X) (bucketsDated_groupByDate X)
  have hgrp : groupByDate (X ++ [t])
      = addToBucket (groupByDate X) (dateOf t.timestamp) t := by
    show loadAux [] (X ++ [t]) = _
    rw [loadAux_append]
    rfl
  have hperm := joinG_groupByDate_perm X
  have hmemA : ∀ u ∈ A, tsRel u t := by
    intro u hu
    exact h u (hperm.mem_iff.mp (by rw [hAB]; exact List.mem_append.mpr (Or.inl hu)))
  have hmemB : ∀ u ∈ B, ¬ tsRel t u := by
    intro u hu hcon
    have hle : tsLe u.timestamp t.timestamp = true :=
      h u (hperm.mem_iff.mp (by rw [hAB]; exact List.mem_append.mpr (Or.inr hu)))
    have heq : u.timestamp = t.timestamp := tsLe_antisymm hle hcon
    exact hB u hu (congrArg dateOf heq)
  show List.insertionSort tsRel (joinG (groupByDate (X ++ [t])))
      = List.insertionSort tsRel (joinG (groupByDate X)) ++ [t]
  rw [hgrp, hABt, hAB]
  exact insertionSort_append_last A B hmemA hmemB

/-- C5, witness: appending the latest-stamped turn `turnBye` to the
persisted `[turnHi, turnHello]`. -/
theorem C5_append_preserves_order_witness :
    (∀ u ∈ [turnHi, turnHello], tsLe u.timestamp turnBye.timestamp = true)
    ∧ flatten_chat_history (load_chat_history (append_chat_entry
        (.content [turnHi, turnHello]) turnBye))
      = flatten_chat_history (load_chat_history (.content [turnHi, turnHello])) ++ [turnBye] :=
  ⟨by decide, C5_append_preserves_order [turnHi, turnHello] turnBye (by decide)⟩

/-- C6, counterexample: a line carrying a `message` object WITHOUT a
`content` field is not skipped — it ends the stream.  The claim's reading
(skip and continue past it) would make the two runs below equal; the code
yields `[]` for the first and `[Json.str "hi"]` for the second. -/
theorem C6_counterexample :
    generate_ai_response [msgNoContentLine, contentLine "hi"] = []
    ∧ generate_ai_response [contentLine "hi"] = [Json.str "hi"]
    ∧ generate_ai_response [msgNoContentLine, contentLine "hi"]
        ≠ generate_ai_response [contentLine "hi"] := by
  refine ⟨rfl, rfl, ?_⟩
  intro hcon
  have h1 : ([] : List Json) = [Json.str "hi"] := hcon
  exact List.noConfusion h1

/-- C6, amended: each line is handled independently; an object line whose
`message.content` field holds a string yields exactly that string as one
fragment; an object line with no `message` key is skipped without error
and the sequence continues past it; but an object line whose `message`
object lacks a `content` field raises a KeyError that the handler turns
into the end of the sequence. -/
theorem C6_line_handling :
    (∀ (fields mfields : List (String × Json)) (s : String) (rest : List (Option Json)),
        fields.lookup "message" = some (.obj mfields) →
        mfields.lookup "content" = some (.str s) →
        generate_ai_response (some (.obj fields) :: rest)
          = Json.str s :: generate_ai_response rest)
    ∧ (∀ (fields : List (String × Json)) (rest : List (Option Json)),
        fields.lookup "message" = none →
        generate_ai_response (some (.obj fields) :: rest) = generate_ai_response rest)
    ∧ (∀ (fields mfields : List (String × Json)) (rest : List (Option Json)),
        fields.lookup "message" = some (.obj mfields) →
        mfields.lookup "content" = none →
        generate_ai_response (some (.obj fields) :: rest) = []) := by
  refine ⟨?_, ?_, ?_⟩
  · intro fields mfields s rest h1 h2
    simp only [generate_ai_response, processLine, h1, h2]
  · intro fields rest h1
    simp only [generate_ai_response, processLine, h1]
  · intro fields mfields rest h1 h2
    simp only [generate_ai_response, processLine, h1, h2]

/-- C6, witness: the three line-handling rules applied at concrete
lines. -/
theorem C6_line_handling_witness :
    generate_ai_response [some (Json.obj [("message", Json.obj [("content", Json.str "hi")])])]
        = Json.str "hi" :: generate_ai_response []
    ∧ generate_ai_response [some (Json.obj [("greeting", Json.str "x")])]
        = generate_ai_response []
    ∧ generate_ai_response [some (Json.obj [("message", Json.obj [])])] = [] :=
  ⟨C6_line_handling.1 [("message", Json.obj [("content", Json.str "hi")])]
      [("content", Json.str "hi")] "hi" [] rfl rfl,
   C6_line_handling.2.1 [("greeting", Json.str "x")] [] rfl,
   C6_line_handling.2.2 [("message", Json.obj [])] [] [] rfl rfl⟩

/-- C7: a decode error mid-stream (the `none` line) ends the produced
sequence early without raising to the caller — everything after it is
ignored — and every fragment yielded before it is retained, so the
submit handler persists the assistant turn carrying the partial
concatenated response. -/
theorem C7_partial_stream_saved (pre : List String) (post : List (Option Json))
    (X : List ChatTurn) (ts : String) :
    generate_ai_response (pre.map contentLine ++ none :: post) = pre.map Json.str
    ∧ runAssistantPhase (.content X) ts (pre.map contentLine ++ none :: post)
      = .content (X ++ [⟨ts, "AI  ", pre.foldl (fun a b => a ++ b) ""⟩]) := by
  refine ⟨generate_content_lines pre post, ?_⟩
  show append_chat_entry (.content X) ⟨ts, "AI  ",
      assembleFragments (generate_ai_response (pre.map contentLine ++ none :: post))⟩ = _
  rw [generate_content_lines pre post, assembleFragments_strs]
  rfl

/-- C8, counterexample: `load()` CAN raise.  On a file whose contents
parse as JSON but are not an array of proper turn objects — here
`[{}]`, an array holding one empty object — the grouping loop, which
sits outside the `try` block, evaluates `chat["timestamp"]` on an
object without that key and raises KeyError out of the function,
instead of reporting non-fatally and returning the empty mapping the
claim promises. -/
theorem C8_counterexample :
    load_chat_history_full (.wrongShape (Json.arr [Json.obj []]))
      = .error PyError.keyError
    ∧ load_chat_history_full (.wrongShape (Json.arr [Json.obj []]))
      ≠ .ok ([] : GroupedJson) :=
  ⟨rfl, fun h => Except.noConfusion h⟩

/-- C8, amended: `load()` does not raise for a missing file (empty
grouped mapping), nor for contents that fail to parse as JSON (the
parse error is reported non-fatally — the only case the report fires —
and the history is treated as empty, with no partial recovery), nor
for a well-shaped array of turn objects, which it groups by date; but
contents that parse as JSON without being such an array raise uncaught
in the grouping loop, which sits outside the `try` block. -/
theorem C8_load_guarded :
    load_chat_history_full .missing = .ok []
    ∧ load_chat_history_full .malformed = .ok []
    ∧ readErrorReported .malformed = true
    ∧ readErrorReported .missing = false
    ∧ ∀ cs : List ChatTurn, load_chat_history_full (.content cs)
        = .ok (encodeGrouped (load_chat_history (.content cs))) :=
  ⟨rfl, rfl, rfl, rfl, load_full_content⟩

/-- C9: appending an entry when the persisted file exists but fails to
parse treats the history as empty and overwrites the file with exactly
the one-element collection holding the new entry. -/
theorem C9_append_over_malformed (e : ChatTurn) :
    append_chat_entry .malformed e = .content [e] := rfl

/-- C10: the exchange-pairing scan partitions the index range exactly:
the spans of the recorded exchanges, concatenated in scan order, are
precisely `0, 1, …, n-1`, and every recorded exchange spans one index or
the two consecutive indices `u, u+1`. -/
theorem C10_pairing_partition (chats : List ChatTurn) :
    ((pairExchangeIdx 0 chats).map exSpan).flatten = List.range chats.length
    ∧ (pairExchangeIdx 0 chats).all
        (fun p => match p.2 with | none => true | some j => j == p.1 + 1) = true := by
  constructor
  · rw [List.range_eq_range']
    exact pairExchangeIdx_flatten_aux chats.length chats (le_refl _) 0
  · rw [List.all_eq_true]
    intro p hp
    rcases pairExchangeIdx_span_aux chats.length chats (le_refl _) 0 p hp with h | h
    · simp [h]
    · simp [h]

end NewAI
